import Mathlib

/-!
Verification development for the Huffman compression repository
(`src/huffman_tree.py`, `src/huffman_compressor.py`).

Texts are modelled as `List Char`, Python dicts as insertion-ordered
association lists, Python floats as exact rationals, and Python exceptions
as `Except` / `Option` results (`none` models an uncaught runtime error such
as `AttributeError` on a null child).  The binary heap is the exact CPython
`heapq` algorithm (`heappush` / `heappop` with `_siftdown` / `_siftup`),
since the repository's tie-breaking behaviour depends on it.  Loops are
written with an explicit fuel argument that provably never runs out, so that
every definition is executable by kernel reduction.
-/

/-- Embedding of the Python class `NodoHuffman` (src/huffman_tree.py): an
optional stored character (present exactly on leaves), a frequency, and
optional left/right children, exactly the four constructor fields. -/
inductive NodoHuffman where
  | mk (caracter : Option Char) (frecuencia : Nat)
       (izquierdo : Option NodoHuffman) (derecho : Option NodoHuffman)

/-- Field accessor `caracter`. -/
def NodoHuffman.caracter : NodoHuffman → Option Char
  | .mk c _ _ _ => c

/-- Field accessor `frecuencia`. -/
def NodoHuffman.frecuencia : NodoHuffman → Nat
  | .mk _ f _ _ => f

/-- Field accessor `izquierdo`. -/
def NodoHuffman.izquierdo : NodoHuffman → Option NodoHuffman
  | .mk _ _ l _ => l

/-- Field accessor `derecho`. -/
def NodoHuffman.derecho : NodoHuffman → Option NodoHuffman
  | .mk _ _ _ r => r

/-- `NodoHuffman.__lt__`: comparison by frequency only (the `__lt__` the
heap uses; note there is no secondary key). -/
def NodoHuffman.lt (a otro : NodoHuffman) : Bool :=
  decide (a.frecuencia < otro.frecuencia)

/-- `NodoHuffman.es_hoja`: a node is a leaf iff it stores a character. -/
def NodoHuffman.es_hoja (n : NodoHuffman) : Bool :=
  n.caracter.isSome

/-- Characters stored at the leaves of a node, in left-to-right order
(mirrors how `_generar_codigos_recursivo` visits the tree: a node with a
character counts as a leaf, otherwise present children are visited). -/
def NodoHuffman.leafChars : NodoHuffman → List Char
  | .mk (some c) _ _ _ => [c]
  | .mk none _ l r =>
      (match l with
       | some izq => izq.leafChars
       | none => []) ++
      (match r with
       | some der => der.leafChars
       | none => [])

/-- A node is a full tree when every non-leaf node has both children
present.  All trees actually built by `construir_desde_frecuencias` are
full; the predicate is needed because the Python class itself allows
missing children. -/
def NodoHuffman.full : NodoHuffman → Bool
  | .mk (some _) _ _ _ => true
  | .mk none _ (some l) (some r) => l.full && r.full
  | .mk none _ _ _ => false

/-- Multiset of leaf characters of a node. -/
def NodoHuffman.leafMS (n : NodoHuffman) : Multiset Char :=
  (n.leafChars : Multiset Char)

/-- The multiset of leaf characters carried by all nodes of a heap. -/
def heapLeafMS (heap : List NodoHuffman) : Multiset Char :=
  (heap.map NodoHuffman.leafMS).sum

/-- The list of `(character, path)` pairs assigned by a depth-first
traversal of a node with accumulated path `codigo` — the functional value
that `generar_codigos_recursivo` appends to its accumulator dict (proved
below in `generar_codigos_recursivo_eq`). -/
def codesList : NodoHuffman → List Char → List (Char × List Char)
  | .mk (some c) _ _ _, codigo => [(c, codigo)]
  | .mk none _ l r, codigo =>
      (match l with
       | some izq => codesList izq (codigo ++ ['0'])
       | none => []) ++
      (match r with
       | some der => codesList der (codigo ++ ['1'])
       | none => [])

/-! ## Python dictionaries as insertion-ordered association lists -/

/-- Python dict lookup `d[k]` (first — and with unique keys, only — match);
`none` models a `KeyError`. -/
def dictGet {α : Type} : List (Char × α) → Char → Option α
  | [], _ => none
  | (k', v) :: rest, k => if k' = k then some v else dictGet rest k

/-- Python dict assignment `d[k] = v`: update in place if the key exists
(keeping its position), otherwise append at the end. -/
def dictSet {α : Type} (d : List (Char × α)) (k : Char) (v : α) : List (Char × α) :=
  if d.any (fun p => p.1 = k) then d.map (fun p => if p.1 = k then (p.1, v) else p)
  else d ++ [(k, v)]

/-- One step of `collections.Counter`: count one character. -/
def contar (acc : List (Char × Nat)) (c : Char) : List (Char × Nat) :=
  if acc.any (fun p => p.1 = c) then acc.map (fun p => if p.1 = c then (p.1, p.2 + 1) else p)
  else acc ++ [(c, 1)]

/-- `CompresorHuffman.calcular_frecuencias`: `dict(Counter(texto))`, an
insertion-ordered map from character to occurrence count (first-occurrence
order, as in Python).  For empty input this is the empty dict. -/
def calcular_frecuencias (texto : List Char) : List (Char × Nat) :=
  texto.foldl contar []

/-! ## CPython `heapq` on lists of nodes

`_siftdown` / `_siftup` / `heappush` / `heappop` below are the exact
CPython algorithms, with list indexing via `hget` (all indices are in range
in every actual call) and an explicit fuel argument for the `while` loops.
In `_siftdown` the position strictly decreases, so fuel `pos + 1` never
runs out; in `_siftup` the position strictly increases below the length, so
fuel `heap.length` never runs out. -/

/-- List indexing `heap[i]` (in range in all actual uses). -/
def hget (heap : List NodoHuffman) (i : Nat) : NodoHuffman :=
  heap.getD i (NodoHuffman.mk none 0 none none)

/-- CPython `heapq._siftdown(heap, startpos, pos)` with `newitem = heap[pos]`:
bubble `newitem` up towards `startpos` while it is smaller than its parent. -/
def siftdownLoop : Nat → List NodoHuffman → Nat → Nat → NodoHuffman → List NodoHuffman
  | 0, heap, _, pos, newitem => heap.set pos newitem
  | fuel + 1, heap, startpos, pos, newitem =>
      if startpos < pos then
        let parentpos := (pos - 1) / 2
        let parent := hget heap parentpos
        if newitem.lt parent then
          siftdownLoop fuel (heap.set pos parent) startpos parentpos newitem
        else
          heap.set pos newitem
      else
        heap.set pos newitem

/-- CPython `heapq._siftup(heap, pos)` with `newitem = heap[pos]`:
move the smaller child up until a leaf position is reached, place `newitem`
there, then restore with `_siftdown`. -/
def siftupLoop : Nat → List NodoHuffman → Nat → Nat → NodoHuffman → List NodoHuffman
  | 0, heap, startpos, pos, newitem =>
      siftdownLoop (pos + 1) (heap.set pos newitem) startpos pos newitem
  | fuel + 1, heap, startpos, pos, newitem =>
      let endpos := heap.length
      let childpos := 2 * pos + 1
      if childpos < endpos then
        let rightpos := childpos + 1
        let childpos' :=
          if rightpos < endpos ∧ (hget heap childpos).lt (hget heap rightpos) = false then rightpos
          else childpos
        siftupLoop fuel (heap.set pos (hget heap childpos')) startpos childpos' newitem
      else
        siftdownLoop (pos + 1) (heap.set pos newitem) startpos pos newitem

/-- CPython `heapq.heappush(heap, item)`. -/
def heappush (heap : List NodoHuffman) (item : NodoHuffman) : List NodoHuffman :=
  siftdownLoop (heap.length + 1) (heap ++ [item]) 0 heap.length item

/-- CPython `heapq._siftup(heap, pos)`. -/
def siftup (heap : List NodoHuffman) (pos : Nat) : List NodoHuffman :=
  siftupLoop heap.length heap pos pos (hget heap pos)

/-- CPython `heapq.heappop(heap)`: pop the last element; if the heap is
still non-empty, return the old root and sift the last element down from
the root.  `none` models the `IndexError` on an empty heap. -/
def heappop (heap : List NodoHuffman) : Option (NodoHuffman × List NodoHuffman) :=
  match heap.getLast? with
  | none => none
  | some lastelt =>
      let rest := heap.dropLast
      match rest with
      | [] => some (lastelt, [])
      | _ :: _ => some (hget rest 0, siftup (rest.set 0 lastelt) 0)

/-! ## Tree construction (`ArbolHuffman.construir_desde_frecuencias`) -/

/-- The `while len(heap) > 1` merge loop of `construir_desde_frecuencias`:
pop the two smallest nodes, merge them under a fresh internal parent and
push the parent back.  Each iteration shrinks the heap by one, so fuel
`heap.length` never runs out; the unreachable `heappop` failures return the
current heap. -/
def construirLoopF : Nat → List NodoHuffman → List NodoHuffman
  | 0, heap => heap
  | fuel + 1, heap =>
      if 1 < heap.length then
        match heappop heap with
        | none => heap
        | some (izquierdo, h1) =>
            match heappop h1 with
            | none => h1
            | some (derecho, h2) =>
                construirLoopF fuel
                  (heappush h2
                    (NodoHuffman.mk none (izquierdo.frecuencia + derecho.frecuencia)
                      (some izquierdo) (some derecho)))
      else heap

/-- `ArbolHuffman.construir_desde_frecuencias`: `ValueError` on an empty
table; a single leaf for a one-entry table; otherwise push one leaf per
entry (in dict insertion order) and run the merge loop, the root being the
single remaining heap element. -/
def construir_desde_frecuencias (frecuencias : List (Char × Nat)) : Except String NodoHuffman :=
  match frecuencias with
  | [] => .error "No se pueden construir árboles con frecuencias vacías"
  | [(caracter, frecuencia)] => .ok (NodoHuffman.mk (some caracter) frecuencia none none)
  | _ =>
      let heap := frecuencias.foldl
        (fun h p => heappush h (NodoHuffman.mk (some p.1) p.2 none none)) []
      let final := construirLoopF heap.length heap
      match final.head? with
      | some raiz => .ok raiz
      | none => .error "IndexError"

/-! ## Code generation (`ArbolHuffman.generar_codigos`) -/

/-- `ArbolHuffman._generar_codigos_recursivo`: on a leaf store the
accumulated path, otherwise descend into present children appending `'0'`
left and `'1'` right. -/
def generar_codigos_recursivo (nodo : NodoHuffman) (codigo : List Char)
    (codigos : List (Char × List Char)) : List (Char × List Char) :=
  match nodo with
  | .mk (some c) _ _ _ => dictSet codigos c codigo
  | .mk none _ l r =>
      let acc1 := match l with
        | some izq => generar_codigos_recursivo izq (codigo ++ ['0']) codigos
        | none => codigos
      match r with
      | some der => generar_codigos_recursivo der (codigo ++ ['1']) acc1
      | none => acc1

/-- `ArbolHuffman.generar_codigos`: empty dict without a root, the special
one-digit code `"0"` when the root is itself a leaf, otherwise the
recursive traversal starting from the empty path. -/
def generar_codigos (raiz : Option NodoHuffman) : List (Char × List Char) :=
  match raiz with
  | none => []
  | some r =>
      match r.caracter with
      | some c => dictSet [] c ['0']
      | none => generar_codigos_recursivo r [] []

/-! ## Compression (`CompresorHuffman`) -/

/-- `CompresorHuffman._codificar_texto`: concatenation of `codigos[c]` over
the input; `none` models the `KeyError` on a missing symbol. -/
def codificar_texto : List Char → List (Char × List Char) → Option (List Char)
  | [], _ => some []
  | c :: rest, codigos =>
      match dictGet codigos c with
      | none => none
      | some code =>
          match codificar_texto rest codigos with
          | none => none
          | some tail => some (code ++ tail)

/-- The statistics dict built by `CompresorHuffman._generar_estadisticas`
(fields in source order; Python floats modelled as exact rationals). -/
structure Estadisticas where
  longitud_original : Nat
  longitud_comprimida : Nat
  bits_originales : Nat
  bits_comprimidos : Nat
  tasa_compresion : ℚ
  factor_compresion : ℚ
  bits_ahorrados : ℤ
  tiempo_compresion : ℚ
deriving DecidableEq

/-- `CompresorHuffman._generar_estadisticas`. -/
def generar_estadisticas (texto_original texto_codificado : List Char)
    (tiempo_procesamiento : ℚ) : Estadisticas :=
  if texto_original.isEmpty then
    ⟨0, 0, 0, 0, 0, 0, 0, tiempo_procesamiento⟩
  else
    let longitud_original := texto_original.length
    let longitud_comprimida := texto_codificado.length
    let bits_originales := longitud_original * 8
    let bits_comprimidos := longitud_comprimida
    let bits_ahorrados : ℤ := (bits_originales : ℤ) - (bits_comprimidos : ℤ)
    let tasa_compresion : ℚ :=
      if 0 < bits_originales then ((bits_ahorrados : ℚ) / (bits_originales : ℚ)) * 100 else 0
    let factor_compresion : ℚ :=
      if 0 < bits_comprimidos then (bits_originales : ℚ) / (bits_comprimidos : ℚ) else 0
    ⟨longitud_original, longitud_comprimida, bits_originales, bits_comprimidos,
      tasa_compresion, factor_compresion, bits_ahorrados, tiempo_procesamiento⟩

/-- `CompresorHuffman.comprimir`.  `tiempo` stands for the measured
wall-clock duration (used only inside the returned statistics; the empty
branch passes the literal `0` as in the source).  The source additionally
merges the tree-shape statistics of `obtener_estadisticas` into the dict;
those extra keys are not modelled.  `none` models an uncaught exception. -/
def comprimir (texto : List Char) (tiempo : ℚ) :
    Option (List Char × List (Char × List Char) × Option NodoHuffman × Estadisticas) :=
  if texto.isEmpty then
    some ([], [], none, generar_estadisticas texto [] 0)
  else
    match construir_desde_frecuencias (calcular_frecuencias texto) with
    | .error _ => none
    | .ok raiz =>
        let codigos := generar_codigos (some raiz)
        match codificar_texto texto codigos with
        | none => none
        | some texto_codificado =>
            some (texto_codificado, codigos, some raiz,
              generar_estadisticas texto texto_codificado tiempo)

/-- The statistics dict returned by `CompresorHuffman.descomprimir`
(the early-return branch omits the `longitud_decodificada` key, hence the
`Option`; the wall-clock field is not modelled). -/
structure EstadisticasDesc where
  longitud_decodificada : Option Nat
  exito : Bool
deriving DecidableEq

/-- The bit-by-bit decoding loop of `CompresorHuffman.descomprimir`: follow
`izquierdo` on `'0'` and `derecho` otherwise; on reaching a leaf emit its
character and restart from the root.  `none` models the `AttributeError`
raised when the cursor steps to a missing (`None`) child. -/
def descomprimir_bucle (raiz : NodoHuffman) :
    List Char → NodoHuffman → List Char → Option (List Char)
  | [], _, acc => some acc
  | bit :: rest, nodo_actual, acc =>
      match (if bit = '0' then nodo_actual.izquierdo else nodo_actual.derecho) with
      | none => none
      | some siguiente =>
          match siguiente.caracter with
          | some c => descomprimir_bucle raiz rest raiz (acc ++ [c])
          | none => descomprimir_bucle raiz rest siguiente acc

/-- `CompresorHuffman.descomprimir`: early return on empty input or missing
root (with `exito = False` and no decoded-length key); a leaf root repeats
its character once per digit; otherwise the decoding loop runs and the
result is reported with `exito = True`. -/
def descomprimir (texto_codificado : List Char) (raiz : Option NodoHuffman) :
    Option (List Char × EstadisticasDesc) :=
  if texto_codificado.isEmpty || raiz.isNone then
    some ([], ⟨none, false⟩)
  else
    match raiz with
    | none => some ([], ⟨none, false⟩)
    | some r =>
        match r.caracter with
        | some c =>
            let texto := List.replicate texto_codificado.length c
            some (texto, ⟨some texto.length, true⟩)
        | none =>
            match descomprimir_bucle r texto_codificado r [] with
            | none => none
            | some texto => some (texto, ⟨some texto.length, true⟩)

/-! ## A spec-modelled deterministic-tie-break construction (for claim C4) -/

/-- Modelled from the spec (§4.2): the minimum of a pool of
sequence-numbered nodes, ordered by weight with ties broken by the fixed
secondary key "insertion sequence number" (first-inserted wins).  This
definition does not embed repository code; it follows the spec's words and
exists only to compare against the heap-based construction. -/
def stableMin : List (NodoHuffman × Nat) → Option (NodoHuffman × Nat)
  | [] => none
  | x :: rest =>
      match stableMin rest with
      | none => some x
      | some y =>
          if x.1.frecuencia < y.1.frecuencia ∨
             (x.1.frecuencia = y.1.frecuencia ∧ x.2 ≤ y.2) then some x
          else some y

/-- Modelled from the spec (§4.2): remove the (unique) pool entry carrying
a given sequence number. -/
def removeSeq : List (NodoHuffman × Nat) → Nat → List (NodoHuffman × Nat)
  | [], _ => []
  | x :: rest, s => if x.2 = s then rest else x :: removeSeq rest s

/-- Modelled from the spec (§4.2): the greedy merge loop with the
deterministic tie-break; newly created internal nodes receive the next
sequence numbers in creation order. -/
def stableLoop : Nat → List (NodoHuffman × Nat) → Nat → Option NodoHuffman
  | 0, pool, _ =>
      match pool with
      | [x] => some x.1
      | _ => none
  | fuel + 1, pool, nextseq =>
      match pool with
      | [x] => some x.1
      | _ =>
          match stableMin pool with
          | none => none
          | some a =>
              let pool1 := removeSeq pool a.2
              match stableMin pool1 with
              | none => none
              | some b =>
                  let pool2 := removeSeq pool1 b.2
                  stableLoop fuel
                    ((NodoHuffman.mk none (a.1.frecuencia + b.1.frecuencia)
                        (some a.1) (some b.1), nextseq) :: pool2)
                    (nextseq + 1)

/-- Modelled from the spec (§4.2): tree construction over a frequency table
with the fixed insertion-sequence tie-break (for the frequencies of
`"abcd"` this coincides with tie-breaking by the symbol's natural
ordering). -/
def construir_estable (fs : List (Char × Nat)) : Option NodoHuffman :=
  let pool := (fs.enum).map
    (fun p => (NodoHuffman.mk (some p.2.1) p.2.2 none none, p.1))
  stableLoop pool.length pool fs.length

/-! # Theorems

First the structural induction principle for the nested inductive, then
generic list lemmas, then the heap-permutation facts, and finally the
claim theorems. -/

/-- Structural induction principle for the nested inductive `NodoHuffman`
(derived by strong induction on `sizeOf`, since the automatically generated
recursor has nested motives). -/
theorem NodoHuffman.inductionOn {P : NodoHuffman → Prop} (n : NodoHuffman)
    (h : ∀ c f l r, (∀ l', l = some l' → P l') → (∀ r', r = some r' → P r') →
      P (NodoHuffman.mk c f l r)) :
    P n := by
  have key : ∀ k (m : NodoHuffman), sizeOf m ≤ k → P m := by
    intro k
    induction k with
    | zero =>
      intro m hm
      cases m with
      | mk c f l r => simp at hm
    | succ k ih =>
      intro m hm
      cases m with
      | mk c f l r =>
        apply h
        · intro l' hl
          apply ih
          subst hl
          simp at hm
          omega
        · intro r' hr
          apply ih
          subst hr
          simp at hm
          omega
  exact key (sizeOf n) n le_rfl

/-- Setting an index of a list to the value it already holds is a no-op. -/
theorem set_self_aux {α : Type} (l : List α) (i : Nat) (h : i < l.length) :
    l.set i (l[i]) = l := by
  apply List.ext_getElem
  · simp
  · intro n h1 h2
    rw [List.getElem_set]
    split
    next he => subst he; rfl
    next => rfl

/-- Swapping the head with an updated deeper position is a permutation. -/
theorem cons_set_swap {α : Type} :
    ∀ (t : List α) (k : Nat) (a b : α), k < t.length →
      (a :: t.set k b).Perm (b :: t.set k a)
  | [], k, a, b, h => absurd h (by simp)
  | x :: t, 0, a, b, _ => by
      simpa using List.Perm.swap b a t
  | x :: t, k + 1, a, b, h => by
      simp only [List.set]
      exact (List.Perm.swap x a _).trans
        (((cons_set_swap t k a b (by simpa using h)).cons x).trans (List.Perm.swap b x _))

/-- Writing `a` at `i` and `b` at `j` is a permutation of writing `b` at
`i` and `a` at `j` (ordered case). -/
theorem set_set_swap_perm {α : Type} :
    ∀ (l : List α) (i j : Nat) (a b : α), i < j → j < l.length →
      ((l.set i a).set j b).Perm ((l.set i b).set j a)
  | [], _, _, _, _, _, h => absurd h (by simp)
  | x :: t, 0, j + 1, a, b, _, hj => by
      simp only [List.set]
      exact cons_set_swap t j a b (by simpa using hj)
  | x :: t, i + 1, j + 1, a, b, hij, hj => by
      simp only [List.set]
      exact (set_set_swap_perm t i j a b (by omega) (by simpa using hj)).cons x

/-- Writing `a` at `i` and `b` at `j` is a permutation of writing `b` at
`i` and `a` at `j`, for any two distinct in-range positions. -/
theorem set_set_perm_ne {α : Type} (l : List α) (i j : Nat) (a b : α)
    (hij : i ≠ j) (hi : i < l.length) (hj : j < l.length) :
    ((l.set i a).set j b).Perm ((l.set i b).set j a) := by
  rcases Nat.lt_or_ge i j with h | h
  · exact set_set_swap_perm l i j a b h hj
  · have hji : j < i := by omega
    rw [List.set_comm _ _ _ hij, List.set_comm _ _ _ hij]
    exact set_set_swap_perm l j i b a hji hi

/-- `hget` agrees with list indexing in range. -/
theorem hget_eq (l : List NodoHuffman) (i : Nat) (h : i < l.length) :
    hget l i = l[i] := by
  simp [hget, List.getD_eq_getElem?_getD, List.getElem?_eq_getElem h]

/-- Writing back the value `hget` reads is a no-op. -/
theorem set_hget_self (l : List NodoHuffman) (i : Nat) (h : i < l.length) :
    l.set i (hget l i) = l := by
  rw [hget_eq _ _ h]
  exact set_self_aux _ _ h

/-- `hget` at an index other than the one just written is unchanged. -/
theorem hget_set_ne (l : List NodoHuffman) (i j : Nat) (a : NodoHuffman)
    (hij : i ≠ j) : hget (l.set i a) j = hget l j := by
  simp [hget, List.getD_eq_getElem?_getD, List.getElem?_set_ne hij]

/-- Appending an element and overwriting the appended slot with the same
element is a no-op. -/
theorem concat_set_length {α : Type} (l : List α) (a : α) :
    (l ++ [a]).set l.length a = l ++ [a] := by
  induction l with
  | nil => rfl
  | cons x t ih => simp [List.set, ih]

/-- `siftdownLoop` preserves the length of the heap. -/
theorem siftdownLoop_length :
    ∀ (fuel : Nat) (heap : List NodoHuffman) (s pos : Nat) (item : NodoHuffman),
      (siftdownLoop fuel heap s pos item).length = heap.length := by
  intro fuel
  induction fuel with
  | zero => intro heap s pos item; simp [siftdownLoop]
  | succ fuel ih =>
      intro heap s pos item
      simp only [siftdownLoop]
      split
      · split
        · rw [ih]; simp
        · simp
      · simp

/-- `siftupLoop` preserves the length of the heap. -/
theorem siftupLoop_length :
    ∀ (fuel : Nat) (heap : List NodoHuffman) (s pos : Nat) (item : NodoHuffman),
      (siftupLoop fuel heap s pos item).length = heap.length := by
  intro fuel
  induction fuel with
  | zero => intro heap s pos item; simp [siftupLoop, siftdownLoop_length]
  | succ fuel ih =>
      intro heap s pos item
      simp only [siftupLoop]
      split
      · rw [ih]; simp
      · simp [siftdownLoop_length]

/-- `siftdownLoop` permutes the heap with the new item written at `pos`. -/
theorem siftdownLoop_perm :
    ∀ (fuel : Nat) (heap : List NodoHuffman) (s pos : Nat) (item : NodoHuffman),
      pos < heap.length →
      (siftdownLoop fuel heap s pos item).Perm (heap.set pos item) := by
  intro fuel
  induction fuel with
  | zero => intro heap s pos item _; exact List.Perm.refl _
  | succ fuel ih =>
      intro heap s pos item hpos
      simp only [siftdownLoop]
      split
      next hs =>
        split
        next hcmp =>
          have hpp : (pos - 1) / 2 < pos := by omega
          have hpplen : (pos - 1) / 2 < heap.length := lt_trans hpp hpos
          have h1 := ih (heap.set pos (hget heap ((pos - 1) / 2))) s ((pos - 1) / 2) item
            (by simpa using hpplen)
          refine h1.trans ?_
          have h2 := set_set_perm_ne heap pos ((pos - 1) / 2)
            (hget heap ((pos - 1) / 2)) item (by omega) hpos hpplen
          refine h2.trans ?_
          have h3 : hget heap ((pos - 1) / 2) = hget (heap.set pos item) ((pos - 1) / 2) :=
            (hget_set_ne heap pos ((pos - 1) / 2) item (by omega)).symm
          rw [h3, set_hget_self _ _ (by simpa using hpplen)]
        next => exact List.Perm.refl _
      next => exact List.Perm.refl _

/-- `siftupLoop` permutes the heap with the new item written at `pos`. -/
theorem siftupLoop_perm :
    ∀ (fuel : Nat) (heap : List NodoHuffman) (s pos : Nat) (item : NodoHuffman),
      pos < heap.length →
      (siftupLoop fuel heap s pos item).Perm (heap.set pos item) := by
  intro fuel
  induction fuel with
  | zero =>
      intro heap s pos item hpos
      refine (siftdownLoop_perm _ _ _ _ _ (by simpa using hpos)).trans ?_
      rw [List.set_set]
  | succ fuel ih =>
      intro heap s pos item hpos
      simp only [siftupLoop]
      split
      next hchild =>
        set cp := if 2 * pos + 1 + 1 < heap.length ∧
            (hget heap (2 * pos + 1)).lt (hget heap (2 * pos + 1 + 1)) = false
          then 2 * pos + 1 + 1 else 2 * pos + 1 with hcp
        have hcplen : cp < heap.length := by
          rw [hcp]; split
          next hh => exact hh.1
          next => exact hchild
        have hposcp : pos < cp := by
          rw [hcp]; split <;> omega
        have h1 := ih (heap.set pos (hget heap cp)) s cp item (by simpa using hcplen)
        refine h1.trans ?_
        have h2 := set_set_perm_ne heap pos cp (hget heap cp) item
          (by omega) hpos hcplen
        refine h2.trans ?_
        have h3 : hget heap cp = hget (heap.set pos item) cp :=
          (hget_set_ne heap pos cp item (by omega)).symm
        rw [h3, set_hget_self _ _ (by simpa using hcplen)]
      next =>
        refine (siftdownLoop_perm _ _ _ _ _ (by simpa using hpos)).trans ?_
        rw [List.set_set]

/-- Pushing an item permutes the heap with the item prepended. -/
theorem heappush_perm (heap : List NodoHuffman) (item : NodoHuffman) :
    (heappush heap item).Perm (item :: heap) := by
  unfold heappush
  refine (siftdownLoop_perm _ _ _ _ _ (by simp)).trans ?_
  rw [concat_set_length]
  exact List.perm_append_singleton item heap

/-- Pushing an item grows the heap by one. -/
theorem heappush_length (heap : List NodoHuffman) (item : NodoHuffman) :
    (heappush heap item).length = heap.length + 1 :=
  (heappush_perm heap item).length_eq.trans (by simp)

/-- `heappop` fails exactly on the empty heap. -/
theorem heappop_none_iff (heap : List NodoHuffman) :
    heappop heap = none ↔ heap = [] := by
  rcases heap.eq_nil_or_concat' with rfl | ⟨L, b, rfl⟩
  · simp [heappop]
  · simp only [heappop, List.getLast?_concat, List.dropLast_concat]
    constructor
    · intro h
      cases L <;> simp at h
    · intro h
      simp at h

/-- A successful `heappop` returns a permutation decomposition of the heap. -/
theorem heappop_perm (heap : List NodoHuffman) (r : NodoHuffman)
    (h' : List NodoHuffman) (h : heappop heap = some (r, h')) :
    (r :: h').Perm heap := by
  rcases heap.eq_nil_or_concat' with rfl | ⟨L, b, rfl⟩
  · simp [heappop] at h
  · simp only [heappop, List.getLast?_concat, List.dropLast_concat] at h
    cases L with
    | nil =>
        simp only [Option.some.injEq, Prod.mk.injEq] at h
        obtain ⟨rfl, rfl⟩ := h
        exact List.Perm.refl _
    | cons y t =>
        simp only [Option.some.injEq, Prod.mk.injEq] at h
        obtain ⟨rfl, rfl⟩ := h
        have h1 : ((y :: t).set 0 b) = b :: t := rfl
        have h2 : hget (y :: t) 0 = y := rfl
        rw [h1, h2]
        have h3 : (siftup (b :: t) 0).Perm (b :: t) := by
          unfold siftup
          have h4 : hget (b :: t) 0 = b := rfl
          rw [h4]
          refine (siftupLoop_perm _ _ _ _ _ (by simp)).trans ?_
          rfl
        refine ((h3.cons y).trans ?_)
        exact (List.Perm.swap b y t).trans (List.perm_append_singleton b (y :: t)).symm

/-- A successful `heappop` shrinks the heap by one. -/
theorem heappop_length (heap : List NodoHuffman) (r : NodoHuffman)
    (h' : List NodoHuffman) (h : heappop heap = some (r, h')) :
    h'.length + 1 = heap.length := by
  have := (heappop_perm heap r h' h).length_eq
  simpa using this

/-- A non-empty heap pops successfully. -/
theorem heappop_isSome (heap : List NodoHuffman) (h : heap ≠ []) :
    ∃ p, heappop heap = some p := by
  cases hp : heappop heap with
  | none => exact absurd ((heappop_none_iff heap).mp hp) h
  | some p => exact ⟨p, rfl⟩

/-- `heapLeafMS` distributes over cons. -/
theorem heapLeafMS_cons (x : NodoHuffman) (h : List NodoHuffman) :
    heapLeafMS (x :: h) = x.leafMS + heapLeafMS h := by
  simp [heapLeafMS]

/-- `heapLeafMS` is invariant under permutation. -/
theorem heapLeafMS_perm (l1 l2 : List NodoHuffman) (h : l1.Perm l2) :
    heapLeafMS l1 = heapLeafMS l2 :=
  (h.map _).sum_eq

/-- Pushing adds the pushed node's leaves to the heap's leaf multiset. -/
theorem heappush_leafMS (heap : List NodoHuffman) (item : NodoHuffman) :
    heapLeafMS (heappush heap item) = item.leafMS + heapLeafMS heap := by
  rw [heapLeafMS_perm _ _ (heappush_perm heap item), heapLeafMS_cons]

/-- Popping splits the heap's leaf multiset. -/
theorem heappop_leafMS (heap : List NodoHuffman) (r : NodoHuffman)
    (h' : List NodoHuffman) (h : heappop heap = some (r, h')) :
    r.leafMS + heapLeafMS h' = heapLeafMS heap := by
  rw [← heapLeafMS_perm _ _ (heappop_perm heap r h' h), heapLeafMS_cons]

/-- Membership in a pushed heap. -/
theorem heappush_mem (heap : List NodoHuffman) (item y : NodoHuffman)
    (h : y ∈ heappush heap item) : y = item ∨ y ∈ heap := by
  have := (heappush_perm heap item).mem_iff.mp h
  simpa using this

/-- Membership facts for a popped heap. -/
theorem heappop_mem (heap : List NodoHuffman) (r : NodoHuffman)
    (h' : List NodoHuffman) (h : heappop heap = some (r, h')) :
    r ∈ heap ∧ ∀ y ∈ h', y ∈ heap := by
  have hp := heappop_perm heap r h' h
  constructor
  · exact hp.mem_iff.mp (by simp)
  · intro y hy
    exact hp.mem_iff.mp (by simp [hy])

/-- The merge loop of `construir_desde_frecuencias`, run with fuel equal to
the heap length on a heap of at least two full trees, ends with exactly one
node: a full internal root carrying all the leaves. -/
theorem construirLoopF_spec :
    ∀ (k : Nat) (heap : List NodoHuffman), heap.length = k → 2 ≤ k →
      (∀ n ∈ heap, n.full = true) →
      ∃ raiz, construirLoopF k heap = [raiz] ∧ raiz.full = true ∧
        raiz.caracter = none ∧ raiz.leafMS = heapLeafMS heap := by
  intro k
  induction k using Nat.strong_induction_on with
  | _ k ih =>
    intro heap hlen h2 hfull
    obtain ⟨k', rfl⟩ : ∃ k', k = k' + 1 := ⟨k - 1, by omega⟩
    have hne : heap ≠ [] := by
      intro hh
      rw [hh] at hlen
      simp at hlen
    obtain ⟨⟨izq, h1⟩, hpop1⟩ := heappop_isSome heap hne
    have hlen1 : h1.length = k' := by
      have := heappop_length heap izq h1 hpop1
      omega
    have hne1 : h1 ≠ [] := by
      intro hh
      rw [hh] at hlen1
      simp at hlen1
      omega
    obtain ⟨⟨der, hh2⟩, hpop2⟩ := heappop_isSome h1 hne1
    have hlen2 : hh2.length = k' - 1 := by
      have := heappop_length h1 der hh2 hpop2
      omega
    have hmem1 := heappop_mem heap izq h1 hpop1
    have hmem2 := heappop_mem h1 der hh2 hpop2
    have hfull_izq : izq.full = true := hfull izq hmem1.1
    have hfull_der : der.full = true := hfull der (hmem1.2 der hmem2.1)
    have hfull2 : ∀ n ∈ hh2, n.full = true := fun n hn =>
      hfull n (hmem1.2 n (hmem2.2 n hn))
    set merged := NodoHuffman.mk none (izq.frecuencia + der.frecuencia)
      (some izq) (some der) with hmerged
    have hfull_merged : merged.full = true := by
      have hh : merged.full = (izq.full && der.full) := rfl
      rw [hh, hfull_izq, hfull_der]
      rfl
    have hms_merged : merged.leafMS = izq.leafMS + der.leafMS := by
      rw [hmerged]
      show ((izq.leafChars ++ der.leafChars : List Char) : Multiset Char) = _
      simp [NodoHuffman.leafMS]
    have hms_heap : heapLeafMS heap = izq.leafMS + (der.leafMS + heapLeafMS hh2) := by
      rw [← heappop_leafMS heap izq h1 hpop1, ← heappop_leafMS h1 der hh2 hpop2]
    have hstep : construirLoopF (k' + 1) heap =
        construirLoopF k' (heappush hh2 merged) := by
      simp only [construirLoopF]
      rw [if_pos (by omega)]
      simp only [hpop1, hpop2]
    rcases Nat.lt_or_ge k' 2 with hk' | hk'
    · -- k' = 1: the heap had exactly two nodes, the pushed parent is the root
      have hk1 : k' = 1 := by omega
      subst hk1
      have hhh2 : hh2 = [] := List.length_eq_zero.mp (by omega)
      subst hhh2
      have hpush : heappush [] merged = [merged] := rfl
      refine ⟨merged, ?_, hfull_merged, rfl, ?_⟩
      · rw [hstep, hpush]
        rfl
      · rw [hms_merged, hms_heap]
        simp [heapLeafMS]
    · -- k' ≥ 2: recurse
      have hlen3 : (heappush hh2 merged).length = k' := by
        rw [heappush_length]
        omega
      have hfull3 : ∀ n ∈ heappush hh2 merged, n.full = true := by
        intro n hn
        rcases heappush_mem hh2 merged n hn with rfl | hn2
        · exact hfull_merged
        · exact hfull2 n hn2
      obtain ⟨raiz, hloop, hfr, hcr, hmsr⟩ :=
        ih k' (by omega) (heappush hh2 merged) hlen3 hk' hfull3
      refine ⟨raiz, ?_, hfr, hcr, ?_⟩
      · rw [hstep, hloop]
      · rw [hmsr, heappush_leafMS, hms_merged, hms_heap]
        rw [add_assoc]

/-- Length of the leaf-pushing fold that seeds the construction heap. -/
theorem fold_push_length :
    ∀ (fs : List (Char × Nat)) (acc : List NodoHuffman),
      (fs.foldl (fun h p => heappush h (NodoHuffman.mk (some p.1) p.2 none none)) acc).length
        = acc.length + fs.length := by
  intro fs
  induction fs with
  | nil => intro acc; simp
  | cons p fs ih =>
      intro acc
      simp only [List.foldl]
      rw [ih, heappush_length]
      simp only [List.length_cons]
      omega

/-- Leaf multiset of the leaf-pushing fold: one character per entry. -/
theorem fold_push_leafMS :
    ∀ (fs : List (Char × Nat)) (acc : List NodoHuffman),
      heapLeafMS (fs.foldl (fun h p => heappush h (NodoHuffman.mk (some p.1) p.2 none none)) acc)
        = heapLeafMS acc + (fs.map Prod.fst : Multiset Char) := by
  intro fs
  induction fs with
  | nil => intro acc; simp
  | cons p fs ih =>
      intro acc
      simp only [List.foldl]
      rw [ih, heappush_leafMS]
      have hleaf : (NodoHuffman.mk (some p.1) p.2 none none).leafMS = {p.1} := rfl
      rw [hleaf]
      simp only [List.map_cons]
      have hcons : ((p.1 :: fs.map Prod.fst : List Char) : Multiset Char)
          = {p.1} + (fs.map Prod.fst : Multiset Char) := by
        simp [Multiset.singleton_add]
      rw [hcons]
      abel

/-- Every node in the seeded heap is full (they are all leaves). -/
theorem fold_push_full :
    ∀ (fs : List (Char × Nat)) (acc : List NodoHuffman),
      (∀ n ∈ acc, n.full = true) →
      ∀ n ∈ fs.foldl (fun h p => heappush h (NodoHuffman.mk (some p.1) p.2 none none)) acc,
        n.full = true := by
  intro fs
  induction fs with
  | nil => intro acc h; simpa using h
  | cons p fs ih =>
      intro acc h
      simp only [List.foldl]
      apply ih
      intro n hn
      rcases heappush_mem acc _ n hn with rfl | hn2
      · rfl
      · exact h n hn2

/-- `construir_desde_frecuencias` on a non-empty table succeeds and returns
a full tree whose leaf multiset is exactly the table's key list; with at
least two entries the root is internal. -/
theorem construir_spec (fs : List (Char × Nat)) (hne : fs ≠ []) :
    ∃ raiz, construir_desde_frecuencias fs = .ok raiz ∧ raiz.full = true ∧
      raiz.leafMS = (fs.map Prod.fst : Multiset Char) ∧
      (2 ≤ fs.length → raiz.caracter = none) := by
  match fs with
  | [] => exact absurd rfl hne
  | [(c, f)] =>
      refine ⟨NodoHuffman.mk (some c) f none none, rfl, rfl, rfl, ?_⟩
      intro h
      simp at h
  | p :: q :: rest =>
      have hlen0 : ((p :: q :: rest).foldl
          (fun h pp => heappush h (NodoHuffman.mk (some pp.1) pp.2 none none)) []).length
          = rest.length + 2 := by
        rw [fold_push_length]
        simp
      have hfull0 : ∀ n ∈ (p :: q :: rest).foldl
          (fun h pp => heappush h (NodoHuffman.mk (some pp.1) pp.2 none none)) [],
          n.full = true :=
        fold_push_full _ _ (by simp)
      obtain ⟨raiz, hloop, hf, hc, hms⟩ := construirLoopF_spec
        ((p :: q :: rest).foldl
          (fun h pp => heappush h (NodoHuffman.mk (some pp.1) pp.2 none none)) []).length
        _ rfl (by omega) hfull0
      refine ⟨raiz, ?_, hf, ?_, fun _ => hc⟩
      · show (match (construirLoopF _ _).head? with
          | some r => Except.ok r
          | none => Except.error "IndexError") = Except.ok raiz
        rw [hloop]
        rfl
      · rw [hms, fold_push_leafMS]
        simp [heapLeafMS]

/-- Keys of one `Counter` step. -/
theorem contar_keys (acc : List (Char × Nat)) (c : Char) :
    (contar acc c).map Prod.fst =
      if c ∈ acc.map Prod.fst then acc.map Prod.fst else acc.map Prod.fst ++ [c] := by
  simp only [contar]
  by_cases h : acc.any (fun p => p.1 = c)
  · rw [if_pos h]
    have hm : c ∈ acc.map Prod.fst := by
      simp only [List.any_eq_true, decide_eq_true_eq] at h
      obtain ⟨p, hp, hpc⟩ := h
      exact List.mem_map.mpr ⟨p, hp, hpc⟩
    rw [if_pos hm, List.map_map]
    apply List.map_congr_left
    intro p _
    dsimp
    split <;> rfl
  · rw [if_neg h]
    have hm : c ∉ acc.map Prod.fst := by
      intro hmem
      obtain ⟨p, hp, hpc⟩ := List.mem_map.mp hmem
      exact h (List.any_eq_true.mpr ⟨p, hp, by simp [hpc]⟩)
    rw [if_neg hm, List.map_append]
    rfl

/-- Key-list invariant of the frequency-counting fold: keys stay duplicate
free and collect exactly the characters seen. -/
theorem frec_fold_keys :
    ∀ (texto : List Char) (acc : List (Char × Nat)),
      (acc.map Prod.fst).Nodup →
      ((texto.foldl contar acc).map Prod.fst).Nodup ∧
      (∀ c, c ∈ (texto.foldl contar acc).map Prod.fst ↔ c ∈ acc.map Prod.fst ∨ c ∈ texto) := by
  intro texto
  induction texto with
  | nil =>
      intro acc h
      refine ⟨h, fun c => ?_⟩
      simp
  | cons x texto ih =>
      intro acc h
      have hk := contar_keys acc x
      by_cases hx : x ∈ acc.map Prod.fst
      · have hkeys : (contar acc x).map Prod.fst = acc.map Prod.fst := by
          rw [hk, if_pos hx]
        have hrec := ih (contar acc x) (by rw [hkeys]; exact h)
        refine ⟨hrec.1, fun c => ?_⟩
        rw [List.foldl_cons, hrec.2 c, hkeys]
        simp only [List.mem_cons]
        constructor
        · rintro (h1 | h1)
          · exact Or.inl h1
          · exact Or.inr (Or.inr h1)
        · rintro (h1 | rfl | h1)
          · exact Or.inl h1
          · exact Or.inl hx
          · exact Or.inr h1
      · have hkeys : (contar acc x).map Prod.fst = acc.map Prod.fst ++ [x] := by
          rw [hk, if_neg hx]
        have hnodup : ((contar acc x).map Prod.fst).Nodup := by
          rw [hkeys]
          refine List.nodup_append.mpr ⟨h, List.nodup_singleton x, ?_⟩
          intro a ha hb
          simp only [List.mem_singleton] at hb
          subst hb
          exact hx ha
        have hrec := ih (contar acc x) hnodup
        refine ⟨hrec.1, fun c => ?_⟩
        rw [List.foldl_cons, hrec.2 c, hkeys]
        simp only [List.mem_append, List.mem_singleton, List.mem_cons]
        tauto

/-- The keys of `calcular_frecuencias` are duplicate free. -/
theorem calcular_frecuencias_nodup (texto : List Char) :
    ((calcular_frecuencias texto).map Prod.fst).Nodup :=
  (frec_fold_keys texto [] (by simp)).1

/-- The keys of `calcular_frecuencias` are exactly the input's characters. -/
theorem calcular_frecuencias_mem (texto : List Char) (c : Char) :
    c ∈ (calcular_frecuencias texto).map Prod.fst ↔ c ∈ texto := by
  have := (frec_fold_keys texto [] (by simp)).2 c
  simpa using this

/-- A non-empty text has a non-empty frequency table. -/
theorem calcular_frecuencias_ne_nil (texto : List Char) (h : texto ≠ []) :
    calcular_frecuencias texto ≠ [] := by
  obtain ⟨c, hc⟩ := List.exists_mem_of_ne_nil texto h
  intro hcontra
  have := (calcular_frecuencias_mem texto c).mpr hc
  rw [hcontra] at this
  simp at this

/-- A successful dict lookup is list membership. -/
theorem dictGet_mem {α : Type} :
    ∀ (d : List (Char × α)) (k : Char) (v : α), dictGet d k = some v → (k, v) ∈ d := by
  intro d
  induction d with
  | nil => intro k v h; simp [dictGet] at h
  | cons p rest ih =>
      intro k v h
      obtain ⟨k', v'⟩ := p
      simp only [dictGet] at h
      split at h
      next heq =>
        subst heq
        simp only [Option.some.injEq] at h
        subst h
        exact List.mem_cons_self _ _
      next => exact List.mem_cons_of_mem _ (ih k v h)

/-- Dict lookup succeeds exactly on present keys. -/
theorem dictGet_isSome_iff {α : Type} :
    ∀ (d : List (Char × α)) (k : Char), (dictGet d k).isSome ↔ k ∈ d.map Prod.fst := by
  intro d
  induction d with
  | nil => intro k; simp [dictGet]
  | cons p rest ih =>
      intro k
      obtain ⟨k', v'⟩ := p
      simp only [dictGet, List.map_cons, List.mem_cons]
      split
      next heq => simp [heq]
      next hne =>
        rw [ih k]
        constructor
        · exact Or.inr
        · rintro (rfl | h)
          · exact absurd rfl hne
          · exact h

/-- `dictSet` with a fresh key appends. -/
theorem dictSet_not_mem {α : Type} (d : List (Char × α)) (k : Char) (v : α)
    (h : k ∉ d.map Prod.fst) : dictSet d k v = d ++ [(k, v)] := by
  unfold dictSet
  rw [if_neg]
  intro hany
  simp only [List.any_eq_true, decide_eq_true_eq] at hany
  obtain ⟨p, hp, hpk⟩ := hany
  exact h (List.mem_map.mpr ⟨p, hp, hpk⟩)

/-- The keys of `codesList` are the leaf characters, in traversal order. -/
theorem codesList_keys :
    ∀ (n : NodoHuffman) (pre : List Char), (codesList n pre).map Prod.fst = n.leafChars := by
  intro n
  induction n using NodoHuffman.inductionOn with
  | h c f l r ihl ihr =>
    intro pre
    cases c with
    | some ch => rfl
    | none =>
        cases l with
        | none =>
            cases r with
            | none => rfl
            | some der => simpa [codesList, NodoHuffman.leafChars] using ihr der rfl _
        | some izq =>
            cases r with
            | none => simpa [codesList, NodoHuffman.leafChars] using ihl izq rfl _
            | some der =>
                simp only [codesList, NodoHuffman.leafChars, List.map_append]
                rw [ihl izq rfl, ihr der rfl]

/-- `codesList` with an accumulated path is the plain `codesList` with the
path prepended to every code. -/
theorem codesList_shift :
    ∀ (n : NodoHuffman) (pre : List Char),
      codesList n pre = (codesList n []).map (fun q => (q.1, pre ++ q.2)) := by
  intro n
  induction n using NodoHuffman.inductionOn with
  | h c f l r ihl ihr =>
    intro pre
    cases c with
    | some ch => simp [codesList]
    | none =>
        cases l with
        | none =>
            cases r with
            | none => rfl
            | some der =>
                simp only [codesList, List.nil_append, List.map_append]
                rw [ihr der rfl (pre ++ ['1']), ihr der rfl ['1'], List.map_map]
                apply List.map_congr_left
                intro q _
                simp
        | some izq =>
            cases r with
            | none =>
                simp only [codesList, List.nil_append, List.append_nil, List.map_append]
                rw [ihl izq rfl (pre ++ ['0']), ihl izq rfl ['0'], List.map_map]
                apply List.map_congr_left
                intro q _
                simp
            | some der =>
                simp only [codesList, List.nil_append, List.map_append]
                rw [ihl izq rfl (pre ++ ['0']), ihl izq rfl ['0'],
                  ihr der rfl (pre ++ ['1']), ihr der rfl ['1'], List.map_map, List.map_map]
                congr 1
                · apply List.map_congr_left
                  intro q _
                  simp
                · apply List.map_congr_left
                  intro q _
                  simp

/-- Destructuring membership in the `codesList` of an internal node. -/
theorem codesList_none_mem (pre : List Char) (f : Nat) (l r : Option NodoHuffman)
    (p : Char × List Char) (hp : p ∈ codesList (.mk none f l r) pre) :
    (∃ izq, l = some izq ∧ p ∈ codesList izq (pre ++ ['0'])) ∨
    (∃ der, r = some der ∧ p ∈ codesList der (pre ++ ['1'])) := by
  cases l with
  | none =>
      cases r with
      | none => simp [codesList] at hp
      | some der =>
          simp only [codesList, List.nil_append] at hp
          exact Or.inr ⟨der, rfl, hp⟩
  | some izq =>
      cases r with
      | none =>
          simp only [codesList, List.append_nil] at hp
          exact Or.inl ⟨izq, rfl, hp⟩
      | some der =>
          simp only [codesList, List.mem_append] at hp
          rcases hp with hp | hp
          · exact Or.inl ⟨izq, rfl, hp⟩
          · exact Or.inr ⟨der, rfl, hp⟩

/-- Codes extend the accumulated path. -/
theorem codesList_length_ge :
    ∀ (n : NodoHuffman) (pre : List Char) (c : Char) (p : List Char),
      (c, p) ∈ codesList n pre → pre.length ≤ p.length := by
  intro n
  induction n using NodoHuffman.inductionOn with
  | h c0 f l r ihl ihr =>
    intro pre c p hmem
    cases c0 with
    | some ch =>
        simp only [codesList, List.mem_singleton, Prod.mk.injEq] at hmem
        rw [hmem.2]
    | none =>
        rcases codesList_none_mem pre f l r (c, p) hmem with ⟨izq, hl, hm⟩ | ⟨der, hr, hm⟩
        · have := ihl izq hl (pre ++ ['0']) c p hm
          simp at this
          omega
        · have := ihr der hr (pre ++ ['1']) c p hm
          simp at this
          omega

/-- Codes assigned below an internal node are strictly longer than the
accumulated path; in particular, with an internal root no code is empty. -/
theorem codesList_internal_longer (n : NodoHuffman) (pre : List Char) (c : Char)
    (p : List Char) (hn : n.caracter = none) (hmem : (c, p) ∈ codesList n pre) :
    pre.length < p.length := by
  cases n with
  | mk c0 f l r =>
      cases c0 with
      | some ch => simp [NodoHuffman.caracter] at hn
      | none =>
          rcases codesList_none_mem pre f l r (c, p) hmem with ⟨izq, hl, hm⟩ | ⟨der, hr, hm⟩
          · have := codesList_length_ge izq (pre ++ ['0']) c p hm
            simp at this
            omega
          · have := codesList_length_ge der (pre ++ ['1']) c p hm
            simp at this
            omega

/-- All digits of the generated codes are `'0'` or `'1'`. -/
theorem codesList_digits :
    ∀ (n : NodoHuffman) (pre : List Char),
      (∀ d ∈ pre, d = '0' ∨ d = '1') →
      ∀ (c : Char) (p : List Char), (c, p) ∈ codesList n pre →
        ∀ d ∈ p, d = '0' ∨ d = '1' := by
  intro n
  induction n using NodoHuffman.inductionOn with
  | h c0 f l r ihl ihr =>
    intro pre hpre c p hmem
    cases c0 with
    | some ch =>
        simp only [codesList, List.mem_singleton, Prod.mk.injEq] at hmem
        rw [hmem.2]
        exact hpre
    | none =>
        have hpre0 : ∀ d ∈ pre ++ ['0'], d = '0' ∨ d = '1' := by
          intro d hd
          rcases List.mem_append.mp hd with hd | hd
          · exact hpre d hd
          · simp only [List.mem_singleton] at hd
            exact Or.inl hd
        have hpre1 : ∀ d ∈ pre ++ ['1'], d = '0' ∨ d = '1' := by
          intro d hd
          rcases List.mem_append.mp hd with hd | hd
          · exact hpre d hd
          · simp only [List.mem_singleton] at hd
            exact Or.inr hd
        rcases codesList_none_mem pre f l r (c, p) hmem with ⟨izq, hl, hm⟩ | ⟨der, hr, hm⟩
        · exact ihl izq hl (pre ++ ['0']) hpre0 c p hm
        · exact ihr der hr (pre ++ ['1']) hpre1 c p hm

/-- Codes of distinct characters are never prefixes of one another. -/
theorem codesList_nonprefix :
    ∀ (n : NodoHuffman) (c1 : Char) (p1 : List Char) (c2 : Char) (p2 : List Char),
      (c1, p1) ∈ codesList n [] → (c2, p2) ∈ codesList n [] → c1 ≠ c2 →
      ¬ p1 <+: p2 := by
  intro n
  induction n using NodoHuffman.inductionOn with
  | h c0 f l r ihl ihr =>
    intro c1 p1 c2 p2 h1 h2 hne
    cases c0 with
    | some ch =>
        simp only [codesList, List.mem_singleton, Prod.mk.injEq] at h1 h2
        exact absurd (h1.1.trans h2.1.symm) hne
    | none =>
        have split1 : ∀ (t : NodoHuffman) (c : Char) (p : List Char) (d : Char),
            (c, p) ∈ codesList t ([] ++ [d]) →
            ∃ q, (c, q) ∈ codesList t [] ∧ p = d :: q := by
          intro t c p d hmem
          rw [List.nil_append, codesList_shift t [d]] at hmem
          obtain ⟨⟨cq, q⟩, hq, hqe⟩ := List.mem_map.mp hmem
          simp only [Prod.mk.injEq, List.singleton_append] at hqe
          exact ⟨q, by rw [hqe.1] at hq; exact hq, hqe.2.symm⟩
        rcases codesList_none_mem [] f l r (c1, p1) h1 with ⟨izq1, hl1, hm1⟩ | ⟨der1, hr1, hm1⟩ <;>
          rcases codesList_none_mem [] f l r (c2, p2) h2 with ⟨izq2, hl2, hm2⟩ | ⟨der2, hr2, hm2⟩
        · rw [hl1] at hl2
          obtain rfl : izq1 = izq2 := by injection hl2
          obtain ⟨q1, hq1, rfl⟩ := split1 izq1 c1 p1 '0' hm1
          obtain ⟨q2, hq2, rfl⟩ := split1 izq1 c2 p2 '0' hm2
          intro hp
          exact ihl izq1 hl1 c1 q1 c2 q2 hq1 hq2 hne (List.cons_prefix_cons.mp hp).2
        · obtain ⟨q1, hq1, rfl⟩ := split1 izq1 c1 p1 '0' hm1
          obtain ⟨q2, hq2, rfl⟩ := split1 der2 c2 p2 '1' hm2
          intro hp
          have := (List.cons_prefix_cons.mp hp).1
          simp at this
        · obtain ⟨q1, hq1, rfl⟩ := split1 der1 c1 p1 '1' hm1
          obtain ⟨q2, hq2, rfl⟩ := split1 izq2 c2 p2 '0' hm2
          intro hp
          have := (List.cons_prefix_cons.mp hp).1
          simp at this
        · rw [hr1] at hr2
          obtain rfl : der1 = der2 := by injection hr2
          obtain ⟨q1, hq1, rfl⟩ := split1 der1 c1 p1 '1' hm1
          obtain ⟨q2, hq2, rfl⟩ := split1 der1 c2 p2 '1' hm2
          intro hp
          exact ihr der1 hr1 c1 q1 c2 q2 hq1 hq2 hne (List.cons_prefix_cons.mp hp).2

/-- Membership in a `codesList` whose accumulated path is a single digit. -/
theorem codesList_child_mem (t : NodoHuffman) (c : Char) (p : List Char) (d : Char)
    (hmem : (c, p) ∈ codesList t ([] ++ [d])) :
    ∃ q, (c, q) ∈ codesList t [] ∧ p = d :: q := by
  rw [List.nil_append, codesList_shift t [d]] at hmem
  obtain ⟨⟨cq, q⟩, hq, hqe⟩ := List.mem_map.mp hmem
  simp only [Prod.mk.injEq, List.singleton_append] at hqe
  exact ⟨q, by rw [hqe.1] at hq; exact hq, hqe.2.symm⟩

/-- When the leaf characters are duplicate free and fresh with respect to
the accumulator, `generar_codigos_recursivo` appends exactly the
depth-first `codesList`. -/
theorem generar_codigos_recursivo_eq :
    ∀ (n : NodoHuffman) (pre : List Char) (acc : List (Char × List Char)),
      n.leafChars.Nodup → (∀ c ∈ n.leafChars, c ∉ acc.map Prod.fst) →
      generar_codigos_recursivo n pre acc = acc ++ codesList n pre := by
  intro n
  induction n using NodoHuffman.inductionOn with
  | h c0 f l r ihl ihr =>
    intro pre acc hnodup hfresh
    cases c0 with
    | some ch =>
        have hch : ch ∉ acc.map Prod.fst := hfresh ch (by simp [NodoHuffman.leafChars])
        show dictSet acc ch pre = acc ++ [(ch, pre)]
        exact dictSet_not_mem acc ch pre hch
    | none =>
        cases l with
        | none =>
            cases r with
            | none => simp [generar_codigos_recursivo, codesList]
            | some der =>
                have hlc : (NodoHuffman.mk none f none (some der)).leafChars
                    = der.leafChars := by
                  simp [NodoHuffman.leafChars]
                rw [hlc] at hnodup hfresh
                show generar_codigos_recursivo der (pre ++ ['1']) acc
                    = acc ++ ([] ++ codesList der (pre ++ ['1']))
                rw [List.nil_append]
                exact ihr der rfl (pre ++ ['1']) acc hnodup hfresh
        | some izq =>
            cases r with
            | none =>
                have hlc : (NodoHuffman.mk none f (some izq) none).leafChars
                    = izq.leafChars := by
                  simp [NodoHuffman.leafChars]
                rw [hlc] at hnodup hfresh
                show generar_codigos_recursivo izq (pre ++ ['0']) acc
                    = acc ++ (codesList izq (pre ++ ['0']) ++ [])
                rw [List.append_nil]
                exact ihl izq rfl (pre ++ ['0']) acc hnodup hfresh
            | some der =>
                have hlc : (NodoHuffman.mk none f (some izq) (some der)).leafChars
                    = izq.leafChars ++ der.leafChars := rfl
                rw [hlc] at hnodup hfresh
                obtain ⟨hnl, hnr, hdisj⟩ := List.nodup_append.mp hnodup
                have step1 : generar_codigos_recursivo izq (pre ++ ['0']) acc
                    = acc ++ codesList izq (pre ++ ['0']) :=
                  ihl izq rfl _ acc hnl
                    (fun c hc => hfresh c (List.mem_append_left _ hc))
                have step2 : generar_codigos_recursivo der (pre ++ ['1'])
                      (acc ++ codesList izq (pre ++ ['0']))
                    = (acc ++ codesList izq (pre ++ ['0'])) ++ codesList der (pre ++ ['1']) := by
                  apply ihr der rfl _ _ hnr
                  intro c hc
                  rw [List.map_append, codesList_keys]
                  intro hcmem
                  rcases List.mem_append.mp hcmem with hcmem | hcmem
                  · exact hfresh c (List.mem_append_right _ hc) hcmem
                  · exact hdisj hcmem hc
                show generar_codigos_recursivo der (pre ++ ['1'])
                      (generar_codigos_recursivo izq (pre ++ ['0']) acc)
                    = acc ++ (codesList izq (pre ++ ['0']) ++ codesList der (pre ++ ['1']))
                rw [step1, step2, List.append_assoc]

/-- With an internal root and duplicate-free leaves, `generar_codigos`
returns exactly the depth-first assignment. -/
theorem generar_codigos_eq_codesList (raiz : NodoHuffman) (h : raiz.caracter = none)
    (hnodup : raiz.leafChars.Nodup) :
    generar_codigos (some raiz) = codesList raiz [] := by
  simp only [generar_codigos, h]
  rw [generar_codigos_recursivo_eq raiz [] [] hnodup (by simp)]
  rfl

/-- A full internal node has two full children. -/
theorem full_internal (f : Nat) (l r : Option NodoHuffman)
    (hf : (NodoHuffman.mk none f l r).full = true) :
    ∃ izq der, l = some izq ∧ r = some der ∧ izq.full = true ∧ der.full = true := by
  cases l with
  | none => cases r <;> simp [NodoHuffman.full] at hf
  | some izq =>
      cases r with
      | none => simp [NodoHuffman.full] at hf
      | some der =>
          have hh : (NodoHuffman.mk none f (some izq) (some der)).full
              = (izq.full && der.full) := rfl
          rw [hh] at hf
          simp only [Bool.and_eq_true] at hf
          exact ⟨izq, der, rfl, rfl, hf.1, hf.2⟩

/-- Walking one complete code from an internal node of a full tree emits
exactly that code's character and returns to the root. -/
theorem descomprimir_bucle_code (root : NodoHuffman) :
    ∀ (n : NodoHuffman), n.full = true → n.caracter = none →
      ∀ (c : Char) (p : List Char), (c, p) ∈ codesList n [] →
      ∀ (rest acc : List Char),
        descomprimir_bucle root (p ++ rest) n acc
          = descomprimir_bucle root rest root (acc ++ [c]) := by
  intro n
  induction n using NodoHuffman.inductionOn with
  | h c0 f l r ihl ihr =>
    intro hfull hc c p hmem rest acc
    cases c0 with
    | some ch => simp [NodoHuffman.caracter] at hc
    | none =>
        obtain ⟨izq, der, rfl, rfl, hfi, hfd⟩ := full_internal f l r hfull
        rcases codesList_none_mem [] f (some izq) (some der) (c, p) hmem with
          ⟨izq', hl', hm⟩ | ⟨der', hr', hm⟩
        · obtain rfl : izq = izq' := by injection hl'
          obtain ⟨q, hq, rfl⟩ := codesList_child_mem izq c p '0' hm
          cases izq with
          | mk ci fi li ri =>
              cases ci with
              | some cc =>
                  simp only [codesList, List.mem_singleton, Prod.mk.injEq] at hq
                  obtain ⟨rfl, rfl⟩ := hq
                  rfl
              | none =>
                  exact ihl (NodoHuffman.mk none fi li ri) rfl hfi rfl c q hq rest acc
        · obtain rfl : der = der' := by injection hr'
          obtain ⟨q, hq, rfl⟩ := codesList_child_mem der c p '1' hm
          cases der with
          | mk ci fi li ri =>
              cases ci with
              | some cc =>
                  simp only [codesList, List.mem_singleton, Prod.mk.injEq] at hq
                  obtain ⟨rfl, rfl⟩ := hq
                  rfl
              | none =>
                  exact ihr (NodoHuffman.mk none fi li ri) rfl hfd rfl c q hq rest acc

/-- Decoding the encoding of a text, code by code, recovers the text. -/
theorem descomprimir_bucle_texto (root : NodoHuffman) (codes : List (Char × List Char))
    (hfull : root.full = true) (hroot : root.caracter = none)
    (hmem : ∀ (c : Char) (p : List Char), dictGet codes c = some p → (c, p) ∈ codesList root []) :
    ∀ (texto enc acc : List Char), codificar_texto texto codes = some enc →
      descomprimir_bucle root enc root acc = some (acc ++ texto) := by
  intro texto
  induction texto with
  | nil =>
      intro enc acc h
      simp only [codificar_texto, Option.some.injEq] at h
      subst h
      simp [descomprimir_bucle]
  | cons c rest ih =>
      intro enc acc h
      simp only [codificar_texto] at h
      cases hg : dictGet codes c with
      | none => rw [hg] at h; simp at h
      | some p =>
          rw [hg] at h
          cases ht : codificar_texto rest codes with
          | none => rw [ht] at h; simp at h
          | some tail =>
              rw [ht] at h
              simp only [Option.some.injEq] at h
              subst h
              rw [descomprimir_bucle_code root root hfull hroot c p (hmem c p hg) tail acc]
              rw [ih tail (acc ++ [c]) ht]
              simp

/-- On a full tree the decoding loop never crashes, whatever the digit
string: the cursor always finds a child to step to. -/
theorem descomprimir_bucle_total (root : NodoHuffman) (hfull : root.full = true)
    (hroot : root.caracter = none) :
    ∀ (bits : List Char) (nodo : NodoHuffman) (acc : List Char),
      nodo.full = true → nodo.caracter = none →
      ∃ s, descomprimir_bucle root bits nodo acc = some s := by
  intro bits
  induction bits with
  | nil => intro nodo acc _ _; exact ⟨acc, rfl⟩
  | cons b rest ih =>
      intro nodo acc hf hc
      cases nodo with
      | mk c0 f l r =>
          cases c0 with
          | some ch => simp [NodoHuffman.caracter] at hc
          | none =>
              obtain ⟨izq, der, rfl, rfl, hfi, hfd⟩ := full_internal f l r hf
              by_cases hb : b = '0'
              · subst hb
                cases izq with
                | mk ci fi li ri =>
                    cases ci with
                    | some cc => exact ih root (acc ++ [cc]) hfull hroot
                    | none => exact ih (NodoHuffman.mk none fi li ri) acc hfi rfl
              · cases der with
                | mk ci fi li ri =>
                    cases ci with
                    | some cc =>
                        obtain ⟨s, hs⟩ := ih root (acc ++ [cc]) hfull hroot
                        refine ⟨s, ?_⟩
                        show (match (if b = '0' then some izq
                            else some (NodoHuffman.mk (some cc) fi li ri)) with
                          | none => none
                          | some siguiente =>
                            match siguiente.caracter with
                            | some cch => descomprimir_bucle root rest root (acc ++ [cch])
                            | none => descomprimir_bucle root rest siguiente acc) = some s
                        rw [if_neg hb]
                        exact hs
                    | none =>
                        obtain ⟨s, hs⟩ := ih (NodoHuffman.mk none fi li ri) acc hfd rfl
                        refine ⟨s, ?_⟩
                        show (match (if b = '0' then some izq
                            else some (NodoHuffman.mk none fi li ri)) with
                          | none => none
                          | some siguiente =>
                            match siguiente.caracter with
                            | some cch => descomprimir_bucle root rest root (acc ++ [cch])
                            | none => descomprimir_bucle root rest siguiente acc) = some s
                        rw [if_neg hb]
                        exact hs

/-- Encoding succeeds when every input character has a code. -/
theorem codificar_texto_isSome :
    ∀ (texto : List Char) (codes : List (Char × List Char)),
      (∀ c ∈ texto, (dictGet codes c).isSome) →
      ∃ enc, codificar_texto texto codes = some enc := by
  intro texto
  induction texto with
  | nil => intro codes _; exact ⟨[], rfl⟩
  | cons c rest ih =>
      intro codes h
      have hc := h c (by simp)
      cases hg : dictGet codes c with
      | none => rw [hg] at hc; simp at hc
      | some p =>
          obtain ⟨tail, ht⟩ := ih codes (fun x hx => h x (by simp [hx]))
          refine ⟨p ++ tail, ?_⟩
          simp only [codificar_texto]
          rw [hg, ht]

/-- Encoding a text whose characters all equal `c0` against the singleton
code book `{c0 : "0"}` yields one `'0'` per character. -/
theorem codificar_single :
    ∀ (texto : List Char) (c0 : Char), (∀ x ∈ texto, x = c0) →
      codificar_texto texto [(c0, ['0'])] = some (List.replicate texto.length '0') := by
  intro texto
  induction texto with
  | nil => intro c0 _; rfl
  | cons x rest ih =>
      intro c0 h
      obtain rfl : x = c0 := h x (by simp)
      simp only [codificar_texto]
      have hg : dictGet [(x, ['0'])] x = some ['0'] := by simp [dictGet]
      rw [hg, ih x (fun y hy => h y (by simp [hy]))]
      rfl

/-- The tree `comprimir` builds for a non-empty text: full, duplicate-free
leaves that are exactly the text's characters, and an internal root as soon
as the text has at least two distinct characters. -/
theorem construir_frecuencias_root (texto : List Char) (h : texto ≠ []) :
    ∃ raiz, construir_desde_frecuencias (calcular_frecuencias texto) = .ok raiz ∧
      raiz.full = true ∧ raiz.leafChars.Nodup ∧
      (∀ c, c ∈ raiz.leafChars ↔ c ∈ texto) ∧
      (2 ≤ (calcular_frecuencias texto).length → raiz.caracter = none) := by
  obtain ⟨raiz, hok, hfull, hms, hint⟩ :=
    construir_spec (calcular_frecuencias texto) (calcular_frecuencias_ne_nil texto h)
  have hperm : raiz.leafChars.Perm ((calcular_frecuencias texto).map Prod.fst) :=
    Multiset.coe_eq_coe.mp hms
  refine ⟨raiz, hok, hfull, ?_, ?_, hint⟩
  · exact hperm.nodup_iff.mpr (calcular_frecuencias_nodup texto)
  · intro c
    rw [hperm.mem_iff]
    exact calcular_frecuencias_mem texto c

/-- `descomprimir` on a non-empty digit string and a leaf root repeats the
leaf's character once per digit. -/
theorem descomprimir_leaf (bits : List Char) (ch : Char) (f : Nat)
    (l r : Option NodoHuffman) (hne : bits ≠ []) :
    descomprimir bits (some (NodoHuffman.mk (some ch) f l r))
      = some (List.replicate bits.length ch,
          ⟨some (List.replicate bits.length ch).length, true⟩) := by
  cases bits with
  | nil => exact absurd rfl hne
  | cons b bs => rfl

/-- `descomprimir` on a non-empty digit string and an internal root runs
the decoding loop and reports success. -/
theorem descomprimir_internal (bits : List Char) (f : Nat) (l r : Option NodoHuffman)
    (hne : bits ≠ []) :
    descomprimir bits (some (NodoHuffman.mk none f l r))
      = match descomprimir_bucle (NodoHuffman.mk none f l r) bits
          (NodoHuffman.mk none f l r) [] with
        | none => none
        | some s => some (s, ⟨some s.length, true⟩) := by
  cases bits with
  | nil => exact absurd rfl hne
  | cons b bs => rfl

/-- What `comprimir` returns on a non-empty text: the encoded text, the
code book generated from the built tree, the tree itself and the
statistics, together with the structural facts about that tree. -/
theorem comprimir_nonempty (texto : List Char) (t : ℚ) (h : texto ≠ []) :
    ∃ raiz enc,
      comprimir texto t = some (enc, generar_codigos (some raiz), some raiz,
        generar_estadisticas texto enc t) ∧
      construir_desde_frecuencias (calcular_frecuencias texto) = .ok raiz ∧
      codificar_texto texto (generar_codigos (some raiz)) = some enc ∧
      raiz.full = true ∧ raiz.leafChars.Nodup ∧
      (∀ c, c ∈ raiz.leafChars ↔ c ∈ texto) := by
  obtain ⟨raiz, hok, hfull, hnodup, hmemiff, _⟩ := construir_frecuencias_root texto h
  have hkeys : ∀ c ∈ texto, (dictGet (generar_codigos (some raiz)) c).isSome := by
    intro c hc
    rw [dictGet_isSome_iff]
    cases raiz with
    | mk c0 f l r =>
        cases c0 with
        | some ch =>
            have hlc : (NodoHuffman.mk (some ch) f l r).leafChars = [ch] := rfl
            have hcodes : generar_codigos (some (NodoHuffman.mk (some ch) f l r))
                = [(ch, ['0'])] := rfl
            rw [hcodes]
            have := (hmemiff c).mpr hc
            rw [hlc] at this
            simpa using this
        | none =>
            rw [generar_codigos_eq_codesList (NodoHuffman.mk none f l r) rfl hnodup,
              codesList_keys]
            exact (hmemiff c).mpr hc
  obtain ⟨enc, henc⟩ := codificar_texto_isSome texto _ hkeys
  refine ⟨raiz, enc, ?_, hok, henc, hfull, hnodup, hmemiff⟩
  simp only [comprimir]
  rw [if_neg (by simp [h])]
  rw [hok]
  simp only [henc]

/-- C1: for every finite symbol sequence, decompressing the compressed
output with the returned tree recovers the input exactly (the empty and
single-symbol cases included). -/
theorem c1_round_trip (texto : List Char) (t : ℚ) :
    ((comprimir texto t).bind fun r => (descomprimir r.1 r.2.2.1).map Prod.fst)
      = some texto := by
  by_cases h : texto = []
  · subst h
    rfl
  · obtain ⟨raiz, enc, hcomp, hok, henc, hfull, hnodup, hmemiff⟩ :=
      comprimir_nonempty texto t h
    rw [hcomp]
    show (descomprimir enc (some raiz)).map Prod.fst = some texto
    cases raiz with
    | mk c0 f l r =>
        cases c0 with
        | some ch =>
            -- single-symbol root: every input character is `ch`
            have hall : ∀ x ∈ texto, x = ch := by
              intro x hx
              have := (hmemiff x).mpr hx
              simpa [NodoHuffman.leafChars] using this
            have hcodes : generar_codigos (some (NodoHuffman.mk (some ch) f l r))
                = [(ch, ['0'])] := rfl
            rw [hcodes, codificar_single texto ch hall] at henc
            have henc' : enc = List.replicate texto.length '0' := by
              simpa using henc.symm
            subst henc'
            have hne : List.replicate texto.length '0' ≠ [] := by
              cases hl : texto.length with
              | zero => exact absurd (List.length_eq_zero.mp hl) h
              | succ n => simp
            rw [descomprimir_leaf _ ch f l r hne]
            simp only [Option.map_some, List.length_replicate]
            exact congrArg some (List.eq_replicate_length.mpr hall).symm
        | none =>
            -- internal root: decode code by code
            have hcodes : generar_codigos (some (NodoHuffman.mk none f l r))
                = codesList (NodoHuffman.mk none f l r) [] :=
              generar_codigos_eq_codesList (NodoHuffman.mk none f l r) rfl hnodup
            have hdec := descomprimir_bucle_texto (NodoHuffman.mk none f l r)
              (generar_codigos (some (NodoHuffman.mk none f l r))) hfull rfl
              (fun c p hp => by rw [hcodes] at hp; exact dictGet_mem _ c p hp)
              texto enc [] henc
            obtain ⟨c1, rest, rfl⟩ : ∃ c1 rest, texto = c1 :: rest := by
              cases texto with
              | nil => exact absurd rfl h
              | cons a b => exact ⟨a, b, rfl⟩
            have hne : enc ≠ [] := by
              simp only [codificar_texto] at henc
              cases hg : dictGet (generar_codigos
                  (some (NodoHuffman.mk none f l r))) c1 with
              | none => rw [hg] at henc; simp at henc
              | some p =>
                  rw [hg] at henc
                  cases ht : codificar_texto rest (generar_codigos
                      (some (NodoHuffman.mk none f l r))) with
                  | none => rw [ht] at henc; simp at henc
                  | some tail =>
                      rw [ht] at henc
                      simp only [Option.some.injEq] at henc
                      have hpmem : (c1, p) ∈ codesList (NodoHuffman.mk none f l r) [] := by
                        rw [hcodes] at hg
                        exact dictGet_mem _ c1 p hg
                      have hplen := codesList_internal_longer
                        (NodoHuffman.mk none f l r) [] c1 p rfl hpmem
                      simp only [List.length_nil] at hplen
                      rw [← henc]
                      cases p with
                      | nil => simp at hplen
                      | cons d q => simp
            rw [descomprimir_internal enc f l r hne, hdec]
            rfl

/-- C2 (amended): on any full tree (as all constructed trees are) and any
non-empty digit string — including strings that end in the middle of a
code — `descomprimir` returns a decoded symbol sequence with `exito = True`
and the trailing incomplete code silently discarded; no truncation error is
ever reported. -/
theorem c2_amended_silent_truncation (raiz : NodoHuffman) (bits : List Char)
    (hfull : raiz.full = true) (hne : bits ≠ []) :
    ∃ s, descomprimir bits (some raiz) = some (s, ⟨some s.length, true⟩) := by
  cases raiz with
  | mk c0 f l r =>
      cases c0 with
      | some ch =>
          exact ⟨List.replicate bits.length ch, descomprimir_leaf bits ch f l r hne⟩
      | none =>
          obtain ⟨s, hs⟩ := descomprimir_bucle_total (NodoHuffman.mk none f l r) hfull rfl
            bits (NodoHuffman.mk none f l r) [] hfull rfl
          refine ⟨s, ?_⟩
          rw [descomprimir_internal bits f l r hne, hs]

/-- Witness for `c2_amended_silent_truncation` at a concrete full tree and
the one-digit string `"1"` that stops at an internal node. -/
theorem c2_amended_silent_truncation_witness :
    (NodoHuffman.mk none 4 (some (NodoHuffman.mk (some 'a') 2 none none))
        (some (NodoHuffman.mk none 2 (some (NodoHuffman.mk (some 'b') 1 none none))
          (some (NodoHuffman.mk (some 'c') 1 none none))))).full = true ∧
    (['1'] : List Char) ≠ [] ∧
    ∃ s, descomprimir ['1']
        (some (NodoHuffman.mk none 4 (some (NodoHuffman.mk (some 'a') 2 none none))
          (some (NodoHuffman.mk none 2 (some (NodoHuffman.mk (some 'b') 1 none none))
            (some (NodoHuffman.mk (some 'c') 1 none none))))))
      = some (s, ⟨some s.length, true⟩) :=
  ⟨rfl, by decide,
    c2_amended_silent_truncation
      (NodoHuffman.mk none 4 (some (NodoHuffman.mk (some 'a') 2 none none))
        (some (NodoHuffman.mk none 2 (some (NodoHuffman.mk (some 'b') 1 none none))
          (some (NodoHuffman.mk (some 'c') 1 none none)))))
      ['1'] rfl (by decide)⟩

/-- C2 (counterexample): for the full tree `((a)((b)(c)))` — whose root is
not a leaf — and the encoded string `"1"`, the decoder's cursor ends at the
internal `(b)(c)` node (mid-code), yet `descomprimir` returns the (empty)
symbol sequence decoded so far with `exito = True` instead of failing with
a `TruncatedCode` error: no such error exists in the code. -/
theorem c2_counterexample_no_truncation_error :
    (NodoHuffman.mk none 4 (some (NodoHuffman.mk (some 'a') 2 none none))
        (some (NodoHuffman.mk none 2 (some (NodoHuffman.mk (some 'b') 1 none none))
          (some (NodoHuffman.mk (some 'c') 1 none none))))).es_hoja = false ∧
    descomprimir ['1']
        (some (NodoHuffman.mk none 4 (some (NodoHuffman.mk (some 'a') 2 none none))
          (some (NodoHuffman.mk none 2 (some (NodoHuffman.mk (some 'b') 1 none none))
            (some (NodoHuffman.mk (some 'c') 1 none none))))))
      = some ([], ⟨some 0, true⟩) :=
  ⟨rfl, rfl⟩

/-- C9: every tree built by `construir_desde_frecuencias` is full, so the
decoder never steps to a missing child and never dereferences a null node:
`descomprimir` is total on constructed trees, whatever the digit string. -/
theorem c9_decode_total (fs : List (Char × Nat)) (raiz : NodoHuffman) (bits : List Char)
    (hok : construir_desde_frecuencias fs = .ok raiz) :
    (descomprimir bits (some raiz)).isSome := by
  have hne : fs ≠ [] := by
    rintro rfl
    simp [construir_desde_frecuencias] at hok
  obtain ⟨raiz', hok', hfull', _, _⟩ := construir_spec fs hne
  obtain rfl : raiz = raiz' := by
    rw [hok] at hok'
    injection hok'
  by_cases hb : bits = []
  · subst hb
    rfl
  · cases raiz with
    | mk c0 f l r =>
        cases c0 with
        | some ch => rw [descomprimir_leaf bits ch f l r hb]; rfl
        | none =>
            obtain ⟨s, hs⟩ := descomprimir_bucle_total (NodoHuffman.mk none f l r) hfull' rfl
              bits (NodoHuffman.mk none f l r) [] hfull' rfl
            rw [descomprimir_internal bits f l r hb, hs]
            rfl

/-- Witness for `c9_decode_total` at the table `{a: 1, b: 1}` and a digit
string of arbitrary shape. -/
theorem c9_decode_total_witness :
    construir_desde_frecuencias [('a', 1), ('b', 1)]
      = .ok (NodoHuffman.mk none 2 (some (NodoHuffman.mk (some 'a') 1 none none))
          (some (NodoHuffman.mk (some 'b') 1 none none))) ∧
    (descomprimir ['1', '0', '1']
        (some (NodoHuffman.mk none 2 (some (NodoHuffman.mk (some 'a') 1 none none))
          (some (NodoHuffman.mk (some 'b') 1 none none))))).isSome :=
  ⟨rfl, c9_decode_total [('a', 1), ('b', 1)] _ ['1', '0', '1'] rfl⟩

/-- C10: the statistics returned by `descomprimir` carry `exito = False`
exactly when the encoded input is empty or the tree is absent — the normal
empty case is reported as unsuccessful — and `exito = True` on every other
return. -/
theorem c10_exito_flag (bits : List Char) (raiz : Option NodoHuffman)
    (res : List Char × EstadisticasDesc)
    (h : descomprimir bits raiz = some res) :
    res.2.exito = false ↔ (bits = [] ∨ raiz = none) := by
  by_cases hb : bits = [] ∨ raiz = none
  · have hval : descomprimir bits raiz = some ([], ⟨none, false⟩) := by
      simp only [descomprimir]
      rw [if_pos (by rcases hb with rfl | rfl <;> simp)]
    rw [hval] at h
    simp only [Option.some.injEq] at h
    subst h
    simpa using hb
  · push_neg at hb
    have hexito : res.2.exito = true := by
      cases raiz with
      | none => exact absurd rfl hb.2
      | some r =>
          cases r with
          | mk c0 f l r' =>
              cases c0 with
              | some ch =>
                  rw [descomprimir_leaf bits ch f l r' hb.1] at h
                  simp only [Option.some.injEq] at h
                  rw [← h]
              | none =>
                  rw [descomprimir_internal bits f l r' hb.1] at h
                  cases hdec : descomprimir_bucle (NodoHuffman.mk none f l r') bits
                      (NodoHuffman.mk none f l r') [] with
                  | none =>
                      rw [hdec] at h
                      exact Option.noConfusion h
                  | some s =>
                      rw [hdec] at h
                      simp only [Option.some.injEq] at h
                      rw [← h]
    rw [hexito]
    constructor
    · intro habs
      exact absurd habs (by simp)
    · intro hc
      rcases hc with hc | hc
      · exact absurd hc hb.1
      · exact absurd hc hb.2

/-- Witness for `c10_exito_flag` at the empty-input early return. -/
theorem c10_exito_flag_witness :
    ((([] : List Char), (⟨none, false⟩ : EstadisticasDesc)).2.exito = false
      ↔ (([] : List Char) = [] ∨ (none : Option NodoHuffman) = none)) :=
  c10_exito_flag [] none ([], ⟨none, false⟩) rfl

/-- C6: on empty input `comprimir` returns an empty encoded output, an
empty code book, no tree, and fully zeroed statistics; and `descomprimir`
returns the empty symbol sequence for an absent tree or an empty encoded
input. -/
theorem c6_empty_input (t : ℚ) (bits : List Char) (r : Option NodoHuffman) :
    comprimir [] t = some ([], [], none, ⟨0, 0, 0, 0, 0, 0, 0, 0⟩) ∧
    (descomprimir bits none).map Prod.fst = some [] ∧
    (descomprimir [] r).map Prod.fst = some [] := by
  refine ⟨rfl, ?_, rfl⟩
  simp [descomprimir]

/-- C7: `construir_desde_frecuencias` fails — with the `ValueError` that
plays the role of `EmptyAlphabet` — exactly on the empty table, and builds
a tree on every table with at least one entry.  (The embedding is
state-free; in the source the error is raised before any mutation.) -/
theorem c7_empty_alphabet :
    construir_desde_frecuencias []
      = .error "No se pueden construir árboles con frecuencias vacías" ∧
    ∀ fs : List (Char × Nat),
      (∃ raiz, construir_desde_frecuencias fs = .ok raiz) ↔ fs ≠ [] := by
  refine ⟨rfl, fun fs => ?_⟩
  constructor
  · rintro ⟨raiz, hok⟩ rfl
    simp [construir_desde_frecuencias] at hok
  · intro h
    obtain ⟨raiz, hok, _⟩ := construir_spec fs h
    exact ⟨raiz, hok⟩

/-- C3: every code book produced by `comprimir` on non-empty input is
prefix-free — duplicate-free symbols, each mapped to a non-empty string of
`'0'`/`'1'` digits, and for two distinct symbols neither code is a prefix
of the other. -/
theorem c3_prefix_free (texto : List Char) (t : ℚ) (enc : List Char)
    (cods : List (Char × List Char)) (raiz : Option NodoHuffman) (st : Estadisticas)
    (h : texto ≠ []) (hcomp : comprimir texto t = some (enc, cods, raiz, st)) :
    (cods.map Prod.fst).Nodup ∧
    (∀ p ∈ cods, p.2 ≠ [] ∧ ∀ d ∈ p.2, d = '0' ∨ d = '1') ∧
    (∀ p1 ∈ cods, ∀ p2 ∈ cods, p1.1 ≠ p2.1 → ¬ p1.2 <+: p2.2) := by
  obtain ⟨raiz', enc', hcomp', hok, henc, hfull, hnodup, hmemiff⟩ :=
    comprimir_nonempty texto t h
  rw [hcomp'] at hcomp
  simp only [Option.some.injEq, Prod.mk.injEq] at hcomp
  obtain ⟨rfl, rfl, rfl, rfl⟩ := hcomp
  cases raiz' with
  | mk c0 f l r =>
      cases c0 with
      | some ch =>
          have hcodes : generar_codigos (some (NodoHuffman.mk (some ch) f l r))
              = [(ch, ['0'])] := rfl
          rw [hcodes]
          refine ⟨by simp, ?_, ?_⟩
          · intro p hp
            simp only [List.mem_singleton] at hp
            subst hp
            refine ⟨by simp, ?_⟩
            intro d hd
            simp only [List.mem_singleton] at hd
            exact Or.inl hd
          · intro p1 h1 p2 h2 hne
            simp only [List.mem_singleton] at h1 h2
            subst h1
            subst h2
            exact absurd rfl hne
      | none =>
          have hcodes := generar_codigos_eq_codesList (NodoHuffman.mk none f l r) rfl hnodup
          rw [hcodes]
          refine ⟨?_, ?_, ?_⟩
          · rw [codesList_keys]
            exact hnodup
          · intro p hp
            obtain ⟨c, pp⟩ := p
            constructor
            · intro hnil
              have := codesList_internal_longer (NodoHuffman.mk none f l r) [] c pp rfl hp
              have hnil' : pp = [] := hnil
              rw [hnil'] at this
              simp at this
            · exact codesList_digits (NodoHuffman.mk none f l r) [] (by simp) c pp hp
          · intro p1 h1 p2 h2 hne
            obtain ⟨c1, pp1⟩ := p1
            obtain ⟨c2, pp2⟩ := p2
            exact codesList_nonprefix (NodoHuffman.mk none f l r) c1 pp1 c2 pp2 h1 h2 hne

/-- Witness for `c3_prefix_free` on the input `"ab"`. -/
theorem c3_prefix_free_witness :
    (['a', 'b'] : List Char) ≠ [] ∧
    comprimir ['a', 'b'] 0 = some (['0', '1'],
      ([('a', ['0']), ('b', ['1'])] : List (Char × List Char)),
      some (NodoHuffman.mk none 2 (some (NodoHuffman.mk (some 'a') 1 none none))
        (some (NodoHuffman.mk (some 'b') 1 none none))),
      generar_estadisticas ['a', 'b'] ['0', '1'] 0) ∧
    ((([('a', ['0']), ('b', ['1'])] : List (Char × List Char)).map Prod.fst).Nodup ∧
     (∀ p ∈ ([('a', ['0']), ('b', ['1'])] : List (Char × List Char)),
        p.2 ≠ [] ∧ ∀ d ∈ p.2, d = '0' ∨ d = '1') ∧
     (∀ p1 ∈ ([('a', ['0']), ('b', ['1'])] : List (Char × List Char)),
        ∀ p2 ∈ ([('a', ['0']), ('b', ['1'])] : List (Char × List Char)),
        p1.1 ≠ p2.1 → ¬ p1.2 <+: p2.2)) :=
  ⟨by decide, rfl,
    c3_prefix_free ['a', 'b'] 0 ['0', '1']
      ([('a', ['0']), ('b', ['1'])] : List (Char × List Char))
      (some (NodoHuffman.mk none 2 (some (NodoHuffman.mk (some 'a') 1 none none))
        (some (NodoHuffman.mk (some 'b') 1 none none))))
      (generar_estadisticas ['a', 'b'] ['0', '1'] 0) (by decide) rfl⟩

/-- C4 (amended): construction is deterministic in the sense that the
encoded output, the code book and the tree returned by `comprimir` do not
depend on anything but the input text (in particular not on the measured
wall-clock time), so two calls on the same input return identical trees
and code books; the equal-weight tie-break, however, is the incidental
heap-array order of `heapq`, not a fixed secondary key. -/
theorem c4_amended_deterministic (texto : List Char) (t1 t2 : ℚ) :
    (comprimir texto t1).map (fun r => (r.1, r.2.1, r.2.2.1))
      = (comprimir texto t2).map (fun r => (r.1, r.2.1, r.2.2.1)) := by
  by_cases h : texto = []
  · subst h
    rfl
  · obtain ⟨raiz1, enc1, hc1, hok1, henc1, _, _, _⟩ := comprimir_nonempty texto t1 h
    obtain ⟨raiz2, enc2, hc2, hok2, henc2, _, _, _⟩ := comprimir_nonempty texto t2 h
    obtain rfl : raiz1 = raiz2 := by
      rw [hok1] at hok2
      injection hok2
    obtain rfl : enc1 = enc2 := by
      rw [henc1] at henc2
      injection henc2
    rw [hc1, hc2]
    rfl

/-- C4 (counterexample): on the four equal-weight symbols of `"abcd"` the
code produced for `'b'` is `"10"`, whereas the spec-modelled construction
with the fixed secondary key (insertion sequence — which here coincides
with the symbols' natural ordering) gives `'b'` the code `"01"`: the code
resolves equal-weight ties by the incidental `heapq` array order, not by a
fixed secondary key. -/
theorem c4_counterexample_heap_tiebreak :
    ((comprimir ['a', 'b', 'c', 'd'] 0).map (fun r => dictGet r.2.1 'b')
      = some (some ['1', '0'])) ∧
    ((construir_estable (calcular_frecuencias ['a', 'b', 'c', 'd'])).map
        (fun r => dictGet (generar_codigos (some r)) 'b')
      = some (some ['0', '1'])) ∧
    (['1', '0'] : List Char) ≠ ['0', '1'] :=
  ⟨rfl, rfl, by decide⟩

/-- Counting a run of one repeated character onto a singleton table. -/
theorem contar_all_same :
    ∀ (m : Nat) (c : Char) (k : Nat),
      List.foldl contar [(c, k)] (List.replicate m c) = [(c, k + m)] := by
  intro m
  induction m with
  | zero => intro c k; simp
  | succ m ih =>
      intro c k
      simp only [List.replicate_succ, List.foldl_cons]
      have hc : contar [(c, k)] c = [(c, k + 1)] := by
        simp [contar]
      rw [hc, ih]
      have harith : k + 1 + m = k + (m + 1) := by omega
      rw [harith]

/-- The frequency table of a non-empty run of one repeated character is the
singleton entry for that character with the run length. -/
theorem calcular_frecuencias_replicate (n : Nat) (c : Char) (h : n ≠ 0) :
    calcular_frecuencias (List.replicate n c) = [(c, n)] := by
  obtain ⟨m, rfl⟩ : ∃ m, n = m + 1 := ⟨n - 1, by omega⟩
  simp only [calcular_frecuencias, List.replicate_succ, List.foldl_cons]
  have h0 : contar [] c = [(c, 1)] := rfl
  rw [h0, contar_all_same m c 1]
  have harith : 1 + m = m + 1 := by omega
  rw [harith]

/-- C5: for every non-empty input whose alphabet has exactly one distinct
symbol `c` (such as `"AAAAA"`), `comprimir` yields the code book
`{c: "0"}`, an encoded output with exactly one `'0'` digit per input
occurrence, and a tree that is a single leaf (both children absent, so no
internal nodes); decoding that output with that tree recovers the input. -/
theorem c5_single_symbol (texto : List Char) (c : Char) (t : ℚ)
    (hne : texto ≠ []) (hall : ∀ x ∈ texto, x = c) :
    comprimir texto t
      = some (List.replicate texto.length '0', [(c, ['0'])],
          some (NodoHuffman.mk (some c) texto.length none none),
          generar_estadisticas texto (List.replicate texto.length '0') t) ∧
    (descomprimir (List.replicate texto.length '0')
        (some (NodoHuffman.mk (some c) texto.length none none))).map Prod.fst
      = some texto := by
  have hlen : texto.length ≠ 0 := fun hh => hne (List.length_eq_zero.mp hh)
  have hfreq : calcular_frecuencias texto = [(c, texto.length)] := by
    conv_lhs => rw [List.eq_replicate_length.mpr hall]
    exact calcular_frecuencias_replicate texto.length c hlen
  constructor
  · simp only [comprimir]
    rw [if_neg (by simp [hne])]
    rw [hfreq]
    have hok : construir_desde_frecuencias [(c, texto.length)]
        = .ok (NodoHuffman.mk (some c) texto.length none none) := rfl
    rw [hok]
    have henc : codificar_texto texto
        (generar_codigos (some (NodoHuffman.mk (some c) texto.length none none)))
        = some (List.replicate texto.length '0') :=
      codificar_single texto c hall
    simp only [henc]
    rfl
  · have hne0 : List.replicate texto.length '0' ≠ [] := by
      cases hl : texto.length with
      | zero => exact absurd hl hlen
      | succ m => simp
    rw [descomprimir_leaf _ c texto.length none none hne0]
    simp only [Option.map_some, List.length_replicate]
    exact congrArg some (List.eq_replicate_length.mpr hall).symm

/-- Witness for `c5_single_symbol` at the input `"AAAAA"` of the claim. -/
theorem c5_single_symbol_witness :
    (List.replicate 5 'A' : List Char) ≠ [] ∧
    (∀ x ∈ List.replicate 5 'A', x = 'A') ∧
    (comprimir (List.replicate 5 'A') 0
      = some (List.replicate (List.replicate 5 'A').length '0', [('A', ['0'])],
          some (NodoHuffman.mk (some 'A') (List.replicate 5 'A').length none none),
          generar_estadisticas (List.replicate 5 'A')
            (List.replicate (List.replicate 5 'A').length '0') 0) ∧
     (descomprimir (List.replicate (List.replicate 5 'A').length '0')
        (some (NodoHuffman.mk (some 'A') (List.replicate 5 'A').length none none))).map
          Prod.fst
      = some (List.replicate 5 'A')) :=
  ⟨by decide, by decide,
    c5_single_symbol (List.replicate 5 'A') 'A' 0 (by decide) (by decide)⟩

/-- C8: the statistics of a non-empty compression: `bits_originales` is
eight bits per input symbol, `bits_ahorrados` is the exact (signed, not
clamped) difference to the encoded length, `tasa_compresion` is that
difference over the original bits times 100, and `factor_compresion` is
original over encoded bits (zero if the encoded length were zero). -/
theorem c8_stats (texto : List Char) (t : ℚ) (enc : List Char)
    (cods : List (Char × List Char)) (raiz : Option NodoHuffman) (st : Estadisticas)
    (h : texto ≠ []) (hcomp : comprimir texto t = some (enc, cods, raiz, st)) :
    st.longitud_original = texto.length ∧
    st.bits_originales = texto.length * 8 ∧
    st.bits_comprimidos = enc.length ∧
    st.bits_ahorrados = ((texto.length * 8 : ℕ) : ℤ) - ((enc.length : ℕ) : ℤ) ∧
    st.tasa_compresion
      = ((((texto.length * 8 : ℕ) : ℤ) - ((enc.length : ℕ) : ℤ) : ℤ) : ℚ)
          / ((texto.length * 8 : ℕ) : ℚ) * 100 ∧
    st.factor_compresion
      = if 0 < enc.length then ((texto.length * 8 : ℕ) : ℚ) / ((enc.length : ℕ) : ℚ)
        else 0 := by
  obtain ⟨raiz', enc', hcomp', _, _, _, _, _⟩ := comprimir_nonempty texto t h
  rw [hcomp'] at hcomp
  simp only [Option.some.injEq, Prod.mk.injEq] at hcomp
  obtain ⟨rfl, rfl, rfl, rfl⟩ := hcomp
  have hpos : 0 < texto.length * 8 := by
    have hlen : texto.length ≠ 0 := fun hh => h (List.length_eq_zero.mp hh)
    omega
  simp only [generar_estadisticas]
  rw [if_neg (by simp [h])]
  refine ⟨rfl, rfl, rfl, rfl, ?_, rfl⟩
  rw [if_pos hpos]

/-- Witness for `c8_stats` on the input `"a"`. -/
theorem c8_stats_witness :
    (['a'] : List Char) ≠ [] ∧
    comprimir ['a'] 0 = some (['0'], [('a', ['0'])],
      some (NodoHuffman.mk (some 'a') 1 none none),
      generar_estadisticas ['a'] ['0'] 0) ∧
    ((generar_estadisticas ['a'] ['0'] 0).longitud_original = (['a'] : List Char).length ∧
     (generar_estadisticas ['a'] ['0'] 0).bits_originales = (['a'] : List Char).length * 8 ∧
     (generar_estadisticas ['a'] ['0'] 0).bits_comprimidos = (['0'] : List Char).length ∧
     (generar_estadisticas ['a'] ['0'] 0).bits_ahorrados
       = (((['a'] : List Char).length * 8 : ℕ) : ℤ) - (((['0'] : List Char).length : ℕ) : ℤ) ∧
     (generar_estadisticas ['a'] ['0'] 0).tasa_compresion
       = (((((['a'] : List Char).length * 8 : ℕ) : ℤ)
            - (((['0'] : List Char).length : ℕ) : ℤ) : ℤ) : ℚ)
           / (((['a'] : List Char).length * 8 : ℕ) : ℚ) * 100 ∧
     (generar_estadisticas ['a'] ['0'] 0).factor_compresion
       = if 0 < (['0'] : List Char).length
         then (((['a'] : List Char).length * 8 : ℕ) : ℚ) / (((['0'] : List Char).length : ℕ) : ℚ)
         else 0) :=
  ⟨by decide, rfl,
    c8_stats ['a'] 0 ['0'] [('a', ['0'])]
      (some (NodoHuffman.mk (some 'a') 1 none none))
      (generar_estadisticas ['a'] ['0'] 0) (by decide) rfl⟩
